import Mathlib

/-!
Verification of the consensus core of the NIROPoK post-quantum sidechain.

The definitions below are a shallow embedding of the Rust sources:
* `src/hashchain.rs` (epoch hash chains),
* `src/utils.rs` (leader election),
* `src/merkle.rs` (Merkle leaf hashing),
* `src/ccok.rs` (compact certificates: builder, build, verify),
* `src/blockchain.rs` (block verification).

Modelling conventions, used consistently and documented at each definition:
* Rust `u64`/`usize` values are modelled as `Nat`; the sources assume
  weights and counters fit in `u64` (debug builds panic on overflow).
* Hex strings that merely transport digests (`hash_chain` entries,
  commitments, proposer hashes, public keys) are modelled by their decoded
  byte content, a `List Nat`; `hex::encode`/`hex::decode` round-trips are
  elided.
* The SHA3-256 and Keccak-256 functions of the `sha3` crate are
  implemented concretely (Keccak-f[1600] sponge) so that the two can be
  told apart on concrete inputs.
* External library calls (`rs_merkle` tree roots and proofs, `bincode`
  serialisation, Dilithium signature verification) are passed in as
  explicit function parameters.
* Rust panics are modelled as explicit outcomes (`Option.none` or a
  dedicated error constructor), never as default values.
* `f64` arithmetic (leader-election scores, reveal-count computation) is
  modelled by exact rational arithmetic; each affected definition notes
  this.
-/

namespace NiroPoK

/-- Byte strings: each entry is one byte (`< 256` for all values produced
by the functions below). -/
abbrev Bytes := List Nat

/-- Rust `u64::to_le_bytes`: the 8 little-endian bytes of `n % 2^64`. -/
def u64le (n : Nat) : Bytes :=
  (List.range 8).map (fun i => (n >>> (8 * i)) % 256)

/-- Rust `u64::to_be_bytes`: the 8 big-endian bytes of `n % 2^64`. -/
def u64be (n : Nat) : Bytes :=
  (List.range 8).map (fun i => (n >>> (8 * (7 - i))) % 256)

/-- Rust `u64::from_le_bytes` on (up to) 8 bytes. -/
def u64fromLE (b : Bytes) : Nat :=
  ((List.range 8).map (fun i => (b.getD i 0) <<< (8 * i))).sum

/-- Rust `u64::from_be_bytes` on 8 bytes. -/
def u64fromBE (b : Bytes) : Nat :=
  ((List.range 8).map (fun i => (b.getD i 0) <<< (8 * (7 - i)))).sum

/-! ### Keccak-f[1600] and the SHA3/Keccak sponges

Concrete implementation of the two hash functions of the `sha3` crate used
by the sources: `Sha3_256` (domain byte `0x06`) and `Keccak256` (legacy
domain byte `0x01`).  The state is 25 lanes of 64 bits, modelled as
`List Nat` with arithmetic mod `2^64`. -/

/-- 64-bit rotate left. -/
def rotl64 (x n : Nat) : Nat :=
  ((x <<< n) ||| (x >>> (64 - n))) % (2 ^ 64)

/-- One step of the degree-8 LFSR (polynomial x^8 + x^6 + x^5 + x^4 + 1)
that generates the Keccak round-constant bits. -/
def rcStep (r : Nat) : Nat :=
  let r2 := r <<< 1
  if r2 &&& 0x100 = 0 then r2 else (r2 ^^^ 0x171) &&& 0xFF

/-- Bit `rc(t)` of the Keccak round-constant sequence. -/
def rcBit (t : Nat) : Nat := (rcStep^[t % 255] 1) &&& 1

/-- Round constant for round `i`: bit `rc(j + 7*i)` is placed at lane
position `2^j - 1`. -/
def keccakRCval (i : Nat) : Nat :=
  (List.range 7).foldl (fun acc j => acc ||| (rcBit (j + 7 * i) <<< (2 ^ j - 1))) 0

/-- The 24 Keccak round constants (generated; matches the FIPS 202
table). -/
def keccakRC : List Nat := (List.range 24).map keccakRCval

/-- The rho rotation walk: step `t` assigns offset `(t+1)(t+2)/2 mod 64`
to the current lane and moves `(x, y) ↦ (y, (2x+3y) mod 5)` from the
start `(1, 0)`. -/
def rhoPairs : List (Nat × Nat) :=
  ((List.range 24).foldl (fun st t =>
      let xy := st.1
      let idx := xy.1 + 5 * xy.2
      ((xy.2, (2 * xy.1 + 3 * xy.2) % 5), (idx, ((t + 1) * (t + 2) / 2) % 64) :: st.2))
    (((1, 0) : Nat × Nat), ([] : List (Nat × Nat)))).2

/-- Rho rotation offsets, indexed by lane `x + 5*y` (lane `(0,0)` keeps
offset 0). -/
def rhoOffsets : List Nat := (List.range 25).map (fun i => (rhoPairs.lookup i).getD 0)

/-- Inverse of the pi lane permutation `(x, y) ↦ (y, (2x+3y) mod 5)`:
lane `j = x + 5*y` of the permuted state is lane `(x + 3y) mod 5 + 5*x`
of the input state. -/
def piInv : List Nat :=
  (List.range 25).map (fun j => (j % 5 + 3 * (j / 5)) % 5 + 5 * (j % 5))

/-- Theta step. -/
def theta (s : List Nat) : List Nat :=
  let c := (List.range 5).map (fun x =>
    (s.getD x 0) ^^^ (s.getD (x + 5) 0) ^^^ (s.getD (x + 10) 0) ^^^
    (s.getD (x + 15) 0) ^^^ (s.getD (x + 20) 0))
  let d := (List.range 5).map (fun x =>
    (c.getD ((x + 4) % 5) 0) ^^^ rotl64 (c.getD ((x + 1) % 5) 0) 1)
  (List.range 25).map (fun i => (s.getD i 0) ^^^ (d.getD (i % 5) 0))

/-- Combined rho and pi steps. -/
def rhoPi (s : List Nat) : List Nat :=
  (List.range 25).map (fun j =>
    let i := piInv.getD j 0
    rotl64 (s.getD i 0) (rhoOffsets.getD i 0))

/-- Chi step. -/
def chi (s : List Nat) : List Nat :=
  (List.range 25).map (fun i =>
    let x := i % 5
    let y := i / 5
    (s.getD i 0) ^^^
      (((s.getD ((x + 1) % 5 + 5 * y) 0) ^^^ (2 ^ 64 - 1)) &&&
        (s.getD ((x + 2) % 5 + 5 * y) 0)))

/-- One Keccak round: theta, rho, pi, chi, iota. -/
def keccakRound (s : List Nat) (rc : Nat) : List Nat :=
  let t := chi (rhoPi (theta s))
  t.set 0 ((t.getD 0 0) ^^^ rc)

/-- The full Keccak-f[1600] permutation (24 rounds). -/
def keccakF (s : List Nat) : List Nat :=
  keccakRC.foldl keccakRound s

/-- Multi-rate padding: append the domain-separation byte `ds`, zero or
more `0x00` bytes, and a final `0x80` (merged into one byte when a single
byte of padding is needed), up to a multiple of the 136-byte rate. -/
def padSponge (ds : Nat) (m : Bytes) : Bytes :=
  let q := 136 - (m.length % 136)
  if q = 1 then m ++ [ds ||| 0x80]
  else m ++ [ds] ++ List.replicate (q - 2) 0 ++ [0x80]

/-- Interpret a 136-byte block as 17 little-endian 64-bit lanes. -/
def bytesToLanes (block : Bytes) : List Nat :=
  (List.range 17).map (fun i =>
    ((List.range 8).map (fun j => (block.getD (8 * i + j) 0) <<< (8 * j))).sum)

/-- Absorb one 136-byte block into the sponge state. -/
def absorbBlock (s : List Nat) (block : Bytes) : List Nat :=
  let bl := bytesToLanes block
  keccakF ((List.range 25).map (fun i => (s.getD i 0) ^^^ (bl.getD i 0)))

/-- Split a byte string into 136-byte chunks (structural recursion on a
fuel bound so that the kernel can evaluate it). -/
def chunksAux : Nat → Bytes → List Bytes
  | 0, _ => []
  | _ + 1, [] => []
  | fuel + 1, m => m.take 136 :: chunksAux fuel (m.drop 136)

/-- Split a byte string into 136-byte chunks. -/
def chunks136 (m : Bytes) : List Bytes :=
  chunksAux (m.length + 1) m

/-- Squeeze the first 32 bytes out of the sponge state. -/
def squeeze32 (s : List Nat) : Bytes :=
  (List.range 32).map (fun i => ((s.getD (i / 8) 0) >>> (8 * (i % 8))) % 256)

/-- The Keccak sponge at rate 136 (capacity 512) with 32-byte output. -/
def keccakSponge (ds : Nat) (m : Bytes) : Bytes :=
  squeeze32 ((chunks136 (padSponge ds m)).foldl absorbBlock (List.replicate 25 0))

/-- NIST SHA3-256 (`sha3::Sha3_256`): domain-separation byte `0x06`. -/
def sha3_256 (m : Bytes) : Bytes := keccakSponge 0x06 m

/-- Legacy Keccak-256 (`sha3::Keccak256`): domain-separation byte `0x01`. -/
def keccak256 (m : Bytes) : Bytes := keccakSponge 0x01 m

/-! ### Hash chains (`src/hashchain.rs`)

Chain entries are hex strings in the source; they are modelled by their
decoded byte content (`hex::encode`/`hex::decode` round-trips on the
lowercase hex the chain itself produces are the identity on bytes). -/

/-- Rust `EPOCH_DURATION` from `src/config.rs`. -/
def EPOCH_DURATION : Nat := 10

/-- One iteration of the loop body of `HashChain::new`: push the SHA3-256
digest of the decoded last entry. -/
def pushNextHash (c : List Bytes) : List Bytes :=
  c ++ [sha3_256 (c.getLastD [])]

/-- Rust `HashChain::new` for a given 64-bit `nonce` (the source draws it from
`rand::thread_rng`): the initial entry is `SHA3-256(nonce.to_be_bytes())`
and the loop body runs `EPOCH_DURATION + 1` times. -/
def hashChainNew (nonce : Nat) : List Bytes :=
  pushNextHash^[EPOCH_DURATION + 1] [sha3_256 (u64be nonce)]

/-- Rust `verify_hash_chain_index(commitment, index, received_hash)`: hash the
received value once per element of the Rust range
`(EPOCH_DURATION - index + 1)..(EPOCH_DURATION + 1)` and compare with the
commitment.  The count below (with truncated `Nat` subtraction) agrees
with the source for every `index ≤ EPOCH_DURATION + 1`; beyond that the
source's `u64` subtraction underflows (a panic in debug builds), and all
theorems stay within the agreeing range. -/
def verifyHashChainIndex (commitment : Bytes) (index : Nat) (received : Bytes) : Bool :=
  sha3_256^[(EPOCH_DURATION + 1) - (EPOCH_DURATION - index + 1)] received == commitment

/-! ### Leader election (`src/utils.rs`, `src/accounts.rs`, `src/validator.rs`) -/

/-- Rust `Account` from `src/accounts.rs`. -/
structure Account where
  address : String
deriving DecidableEq, Inhabited

/-- Rust `HashChainCom` from `src/hashchain.rs`; the `hash_chain_index` hex
string is modelled by its byte content. -/
structure HashChainCom where
  hash_chain_index : Bytes
  sender : Account
deriving DecidableEq, Inhabited

/-- Rust `State` from `src/accounts.rs`.  The `HashMap<Account, f64>` of
balances is modelled as an association list with exact rational values
(`f64` modelled by `ℚ`). -/
structure State where
  accounts : List Account
  balances : List (Account × ℚ)
deriving DecidableEq

/-- Rust `Validator` from `src/validator.rs` (the `next_block_hash` map is
never read by the verified functions and is omitted). -/
structure Validator where
  state : State
  hash_chain_com : List (String × HashChainCom)
deriving DecidableEq

/-- Rust `HashMap::get` on the balances map. -/
def lookupBal : List (Account × ℚ) → Account → Option ℚ
  | [], _ => none
  | (a, q) :: rest, b => if a = b then some q else lookupBal rest b

/-- Rust `HashMap::get` on the `hash_chain_com` map. -/
def lookupCom : List (String × HashChainCom) → String → Option HashChainCom
  | [], _ => none
  | (a, c) :: rest, b => if a = b then some c else lookupCom rest b

/-- The `weights` vector of `select_block_proposer`: for each account in
iteration order, `1e9 − (u64_be(SHA3-256(seed ‖ commitment)[0..8]) as f64)
/ balance` when both the commitment and the balance are present, else the
initial `0.0`.  `f64` arithmetic is modelled by exact rational
arithmetic (the source's §9 note already flags the `u64 → f64` precision
loss). -/
def electionWeight (seed : Bytes) (v : Validator) (account : Account) : ℚ :=
  match lookupCom v.hash_chain_com account.address with
  | some hashValue =>
    let digest := sha3_256 (seed ++ hashValue.hash_chain_index)
    let numeric := u64fromBE (digest.take 8)
    match lookupBal v.state.balances account with
    | some balance => (1000000000 : ℚ) - (numeric : ℚ) / balance
    | none => 0
  | none => 0

/-- The full `weights` vector, one entry per account in iteration order. -/
def electionWeights (seed : Bytes) (v : Validator) : List ℚ :=
  v.state.accounts.map (electionWeight seed v)

/-- The `weight < lowest_weight` comparison of the selection loop;
`none` models the initial `f64::INFINITY`, below which every (finite)
modelled weight lies. -/
def ltLowest (w : ℚ) (lowest : Option ℚ) : Bool :=
  match lowest with
  | none => true
  | some l => decide (w < l)

/-- The selection loop of `select_block_proposer`: walk the
`(weight, account)` pairs, updating the proposer on every strict
improvement. -/
def selectLoop : List (ℚ × Account) → Option ℚ → Account → Account
  | [], _, proposer => proposer
  | (w, a) :: rest, lowest, proposer =>
    if ltLowest w lowest then selectLoop rest (some w) a
    else selectLoop rest lowest proposer

/-- Rust `select_block_proposer` from `src/utils.rs`.  The source returns
`&Account` and evaluates `&validator.state.accounts[0]` before the loops,
which panics (index out of bounds) when the account list is empty; the
panic is modelled as `none`.  No error value of any kind is returned by
the source. -/
def selectBlockProposer (seed : Bytes) (v : Validator) : Option Account :=
  match v.state.accounts with
  | [] => none
  | a0 :: _ =>
    some (selectLoop ((electionWeights seed v).zip v.state.accounts) none a0)

/-! ### Merkle leaf hashing (`src/merkle.rs`)

`CustomHasher` is declared with the comment "Custom hasher using
Keccak256 (SHA3)" but instantiates `sha3::Keccak256`, the legacy Keccak,
not NIST SHA3-256.  `rs_merkle`'s tree construction and proof machinery
are external-crate collaborators and enter as function parameters where
needed; the leaf computation below is the `MerkleTreeBuilder::build` code
itself.  `bincode` serialisation is likewise a parameter `ser`. -/

/-- Rust `CustomHasher::hash` from `src/merkle.rs`: a single `Keccak256`
digest of the input bytes. -/
def customHasherHash (data : Bytes) : Bytes := keccak256 data

/-- The leaf vector computed by `MerkleTreeBuilder::build`: one
`CustomHasher` digest of the `bincode` serialisation of each item. -/
def merkleLeaves {α : Type} (ser : α → Bytes) (items : List α) : List Bytes :=
  items.map (fun item => customHasherHash (ser item))

/-- Rust `bincode::serialize` of a `u64` under the crate-level legacy config:
its eight little-endian bytes. -/
def serializeU64 (n : Nat) : Bytes := u64le n

/-! ### Compact certificates (`src/ccok.rs`) -/

/-- Rust `Participant`; the hex `public_key` string is modelled by its decoded
byte content. -/
structure Participant where
  public_key : Bytes
  weight : Nat
deriving DecidableEq, Inhabited

/-- Rust `SigSlot`; the optional Dilithium signature is a byte string. -/
structure SigSlot where
  signature : Option Bytes
  accumulated_weight : Nat
deriving DecidableEq, Inhabited

/-- Rust `Params`. -/
structure Params where
  msg : Bytes
  proven_weight : Nat
  security_param : Nat
deriving DecidableEq, Inhabited

/-- Rust `Builder`. -/
structure Builder where
  params : Params
  sigs : List SigSlot
  signed_weight : Nat
  participants : List Participant
  party_tree_root : Bytes
deriving DecidableEq, Inhabited

/-- Rust `Reveal`. -/
structure Reveal where
  sig_slot : SigSlot
  party : Participant
deriving DecidableEq, Inhabited

/-- Rust `Certificate`; the `HashMap<u64, Reveal>` of reveals is modelled as an
association list. -/
structure Certificate where
  sig_commit : Bytes
  signed_weight : Nat
  total_sigs : Nat
  reveals : List (Nat × Reveal)
  sig_proofs : List Bytes
  party_proofs : List Bytes
  reveal_positions : List Nat
  reveal_indices : List Nat
deriving DecidableEq, Inhabited

/-- The error outcomes of the CCoK builder.  The source returns
`Err(String)`; each constructor records which `format!` string it stands
for.  The two `panic` constructors model Rust panics (which are not
`Err` returns but are failure outcomes of the call). -/
inductive CcokError where
  /-- Source message "Invalid participant position: {pos}" -/
  | invalidPosition (pos : Nat)
  /-- Source message "Already have signature for participant {pos}" -/
  | duplicateSignature (pos : Nat)
  /-- Source message "Participant {pos} has zero weight" -/
  | zeroWeight (pos : Nat)
  /-- Source message "Insufficient signed weight: {sw} < {pw}" -/
  | insufficientWeight (sw pw : Nat)
  /-- Source message "No signatures available" -/
  | noSignatures
  /-- Source message "Could not find position for coin value" -/
  | noCoinPosition
  /-- models the index-out-of-bounds panic on `self.sigs[pos]` when the
  `sigs` vector is shorter than `participants` -/
  | sigsIndexOutOfBounds
  /-- models the `u64 % 0` panic in `coin_choice` when `signed_weight`
  is zero -/
  | remainderByZero
deriving DecidableEq

/-- Stable insertion of one keyed element: after every element with a key
less than or equal to its own (so existing equal-key elements stay
first). -/
def insertByKey {α : Type} (key : α → Nat) (x : α) : List α → List α
  | [] => [x]
  | y :: rest =>
    if key y ≤ key x then y :: insertByKey key x rest
    else x :: y :: rest

/-- A stable sort by a `Nat` key, modelling Rust's stable
`slice::sort_by_key`. -/
def sortByKey {α : Type} (key : α → Nat) : List α → List α
  | [] => []
  | x :: rest => insertByKey key x (sortByKey key rest)

/-- Rust `Builder::new`. -/
def builderNew (params : Params) (participants : List Participant)
    (party_tree_root : Bytes) : Builder :=
  { params := params
    sigs := List.replicate participants.length { signature := none, accumulated_weight := 0 }
    signed_weight := 0
    participants := participants
    party_tree_root := party_tree_root }

/-- The mutations of `Builder::add_signature` after all checks have
passed, in source statement order: set the signature at `pos`, add the
participant's weight to `signed_weight`, and (for `pos > 0`) recompute
the slot's `accumulated_weight` from slot `pos - 1`.  Indexing is within
bounds on this path, so the `getD` defaults are inert. -/
def addSignatureUpdate (b : Builder) (pos : Nat) (sig : Bytes) : Builder :=
  let slot1 := { b.sigs.getD pos default with signature := some sig }
  let b1 := { b with sigs := b.sigs.set pos slot1 }
  let w := (b1.participants.getD pos default).weight
  let b2 := { b1 with signed_weight := b1.signed_weight + w }
  let acc := (b2.sigs.getD (pos - 1) default).accumulated_weight
    + (b2.participants.getD (pos - 1) default).weight
  let slot3 := { b2.sigs.getD pos default with accumulated_weight := acc }
  if 0 < pos then { b2 with sigs := b2.sigs.set pos slot3 } else b2

/-- Rust `Builder::add_signature`, as a state transformer: the second
component is the builder after the call (the source takes `&mut self`;
every mutation happens after all checks, so the error outcomes leave the
builder as it was). -/
def addSignature (b : Builder) (pos : Nat) (sig : Bytes) :
    Except CcokError Unit × Builder :=
  if b.participants.length ≤ pos then (.error (.invalidPosition pos), b)
  else if pos < b.sigs.length then
    if (b.sigs.getD pos default).signature.isSome then
      (.error (.duplicateSignature pos), b)
    else if (b.participants.getD pos default).weight = 0 then
      (.error (.zeroWeight pos), b)
    else
      (.ok (), addSignatureUpdate b pos sig)
  else (.error .sigsIndexOutOfBounds, b)

/-- The reveal count computed by `Builder::build`:
`fraction = 1 − proven_weight / signed_weight` and
`max(1, ceil(security_param · fraction · 0.5))`.  The source computes
this in `f64`; it is modelled here by the exact value: for
`signed_weight > 0` the exact ceiling is
`(security_param·(signed_weight − proven_weight) + 2·signed_weight − 1) /
(2·signed_weight)` (truncated subtraction also covers
`proven_weight > signed_weight`, where the `as usize` cast of the
negative `f64` saturates at 0), and for `signed_weight = 0` the `f64`
NaN casts to 0, leaving `max(1, 0) = 1`.  None of the theorems below
depend on the value of this function. -/
def numReveals (proven_weight signed_weight security_param : Nat) : Nat :=
  if signed_weight = 0 then 1
  else max 1 ((security_param * (signed_weight - proven_weight)
    + 2 * signed_weight - 1) / (2 * signed_weight))

/-- Rust `Builder::coin_choice`: Keccak-256 over the concatenated inputs, first
8 bytes little-endian, reduced mod `signed_weight`.  The `% 0` case is the
Rust remainder-by-zero panic. -/
def coinChoice (b : Builder) (index : Nat) (sig_commit : Bytes) :
    Except CcokError Nat :=
  if b.signed_weight = 0 then .error .remainderByZero
  else
    .ok (u64fromLE ((keccak256 (u64le index ++ u64le b.signed_weight ++
      u64le b.params.proven_weight ++ sig_commit ++ b.party_tree_root ++
      b.params.msg)).take 8) % b.signed_weight)

/-- The cumulative-weight vector of `Builder::find_coin_position`: one
`(index, cumulative weight)` entry per signed slot.  The source indexes
`self.participants[i]`; in all reachable builders `sigs` and
`participants` have equal length, so the `getD` default is inert there. -/
def cumWeightsGo (participants : List Participant) :
    List SigSlot → Nat → Nat → List (Nat × Nat)
  | [], _, _ => []
  | slot :: rest, i, cum =>
    if slot.signature.isSome then
      (i, cum + (participants.getD i default).weight) ::
        cumWeightsGo participants rest (i + 1)
          (cum + (participants.getD i default).weight)
    else cumWeightsGo participants rest (i + 1) cum

/-- The binary-search loop of `Builder::find_coin_position`, written with
a structural fuel bound (the interval length shrinks by at least one per
iteration, so `hi - lo` units of fuel always suffice and the fuel-out
branch coincides with the loop exit). -/
def bsearchGo (cw : List (Nat × Nat)) (coin : Nat) : Nat → Nat → Nat → Nat
  | 0, lo, _ => lo
  | fuel + 1, lo, hi =>
    if lo < hi then
      let mid := (lo + hi) / 2
      if coin < (cw.getD mid default).2 then bsearchGo cw coin fuel lo mid
      else bsearchGo cw coin fuel (mid + 1) hi
    else lo

/-- The binary-search loop of `Builder::find_coin_position`, from
`lo = 0`, `hi = cw.length`. -/
def bsearchLoop (cw : List (Nat × Nat)) (coin : Nat) (lo hi : Nat) : Nat :=
  bsearchGo cw coin (hi - lo) lo hi

/-- Rust `Builder::find_coin_position`. -/
def findCoinPosition (b : Builder) (coin : Nat) : Except CcokError Nat :=
  let cw := cumWeightsGo b.participants b.sigs 0 0
  if cw.isEmpty then .error .noSignatures
  else
    let lo := bsearchLoop cw coin 0 cw.length
    if lo < cw.length then .ok (cw.getD lo default).1
    else .error .noCoinPosition

/-- The reveal-selection loop of `Builder::build` over the coin indices
`0..num_reveals`, carrying the reveal map (`HashMap` modelled as an
association list in insertion order) and the `(position, coin index)`
list. -/
def buildReveals (b : Builder) (sigRoot : Bytes) :
    List Nat → List (Nat × Reveal) → List (Nat × Nat) →
    Except CcokError (List (Nat × Reveal) × List (Nat × Nat))
  | [], revealMap, revealInfo => .ok (revealMap, revealInfo)
  | i :: rest, revealMap, revealInfo =>
    match coinChoice b i sigRoot with
    | .error e => .error e
    | .ok choice =>
      match findCoinPosition b choice with
      | .error e => .error e
      | .ok pos =>
        if (revealMap.lookup pos).isSome then
          buildReveals b sigRoot rest revealMap revealInfo
        else
          buildReveals b sigRoot rest
            (revealMap ++
              [(pos, { sig_slot := b.sigs.getD pos default
                       party := b.participants.getD pos default })])
            (revealInfo ++ [(pos, i)])

/-- Rust `Builder::build`.  External collaborators enter as parameters:
`serSlot`/`serParty` are `bincode::serialize` on the two leaf types, and
`mtRoot`/`mtProve` are `rs_merkle`'s root and multi-proof over a given
leaf vector (the leaf vectors themselves are computed by the
`MerkleTreeBuilder::build` code, i.e. `CustomHasher` digests of the
serialised items). -/
def build (serSlot : SigSlot → Bytes) (serParty : Participant → Bytes)
    (mtRoot : List Bytes → Bytes) (mtProve : List Bytes → List Nat → List Bytes)
    (b : Builder) : Except CcokError Certificate :=
  if b.signed_weight < b.params.proven_weight then
    .error (.insufficientWeight b.signed_weight b.params.proven_weight)
  else
    let sigLeaves := merkleLeaves serSlot b.sigs
    let sigRoot := mtRoot sigLeaves
    let partyLeaves := merkleLeaves serParty b.participants
    let n := numReveals b.params.proven_weight b.signed_weight b.params.security_param
    match buildReveals b sigRoot (List.range n) [] [] with
    | .error e => .error e
    | .ok (revealMap, revealInfo) =>
      let sorted := sortByKey (fun x => x.1) revealInfo
      let sortedPositions := sorted.map (fun x => x.1)
      let sortedIndices := sorted.map (fun x => x.2)
      .ok { sig_commit := sigRoot
            signed_weight := b.signed_weight
            total_sigs := b.sigs.length
            reveals := revealMap
            sig_proofs := mtProve sigLeaves sortedPositions
            party_proofs := mtProve partyLeaves sortedPositions
            reveal_positions := sortedPositions
            reveal_indices := sortedIndices }

/-- The error outcomes of `Certificate::verify` (`Err(String)` returns,
as opposed to the `Ok(false)` rejections). -/
inductive VerifyError where
  /-- Source message "Missing reveal for position {pos}" -/
  | missingReveal (pos : Nat)
  /-- Source message "Invalid public key hex" / "Invalid public key length" -/
  | invalidPublicKey
  /-- Source message "Invalid signature length" -/
  | invalidSignatureLength
deriving DecidableEq

/-- The per-position loop of `Certificate::verify`: look up each reveal,
check the signature is present, check the Dilithium key and signature
lengths, run the (parameterised) Dilithium verification `dv`, and
accumulate `(verified_weight, sig_slots, participants, positions)`.
`Except.ok none` models the early `return Ok(false)` paths. -/
def verifyLoop (dv : Bytes → Bytes → Bytes → Bool) (msg : Bytes)
    (reveals : List (Nat × Reveal)) :
    List Nat → Nat × List SigSlot × List Participant × List Nat →
    Except VerifyError (Option (Nat × List SigSlot × List Participant × List Nat))
  | [], acc => .ok (some acc)
  | pos :: rest, (vw, slots, parties, positions) =>
    match reveals.lookup pos with
    | none => .error (.missingReveal pos)
    | some reveal =>
      match reveal.sig_slot.signature with
      | none => .ok none
      | some s =>
        if reveal.party.public_key.length ≠ 1312 then .error .invalidPublicKey
        else if s.length ≠ 2420 then .error .invalidSignatureLength
        else if dv reveal.party.public_key msg s then
          verifyLoop dv msg reveals rest
            (vw + reveal.party.weight, slots ++ [reveal.sig_slot],
              parties ++ [reveal.party], positions ++ [pos])
        else .ok none

/-- Rust `Certificate::verify`.  `dv` is Dilithium `PublicKey::verify` and `mv`
is `MerkleTreeBuilder::verify` (`rs_merkle` multi-proof verification),
both external collaborators; `serSlot`/`serParty` are `bincode`.  Note
that step 6 (coin-choice re-derivation) is skipped by the source
("Skipping coin choice verification"), so `reveal_indices` is never
read. -/
def certVerify (dv : Bytes → Bytes → Bytes → Bool)
    (mv : Bytes → List Bytes → List Nat → Nat → List Bytes → Bool)
    (serSlot : SigSlot → Bytes) (serParty : Participant → Bytes)
    (cert : Certificate) (params : Params) (party_tree_root : Bytes) :
    Except VerifyError Bool :=
  if cert.signed_weight < params.proven_weight then .ok false
  else
    match verifyLoop dv params.msg cert.reveals cert.reveal_positions (0, [], [], []) with
    | .error e => .error e
    | .ok none => .ok false
    | .ok (some (_, slots, parties, positions)) =>
      let sigPairs := sortByKey (fun x => x.1) (positions.zip
        (slots.map (fun slot => customHasherHash (serSlot slot))))
      if mv cert.sig_commit cert.sig_proofs (sigPairs.map (fun x => x.1))
          cert.total_sigs (sigPairs.map (fun x => x.2)) then
        let partyPairs := sortByKey (fun x => x.1) (positions.zip
          (parties.map (fun party => customHasherHash (serParty party))))
        if mv party_tree_root cert.party_proofs (partyPairs.map (fun x => x.1))
            cert.total_sigs (partyPairs.map (fun x => x.2)) then
          .ok true
        else .ok false
      else .ok false

/-! ### Block verification (`src/blockchain.rs`) -/

/-- Rust `Block` from `src/block.rs`, restricted to the fields read by
`Blockchain::verify_block` (`txn`, `seed` and `certificate` are unused
there and omitted); hex strings are modelled by byte content. -/
structure Block where
  id : Nat
  hash : Bytes
  previous_hash : Bytes
  timestamp : Nat
  proposer_address : String
  proposer_hash : Bytes
deriving DecidableEq, Inhabited

/-- Rust `Blockchain::verify_block`, over the state it reads: the chain, the
validator's `hash_chain_com` map, and `epoch.timestamp`.  `none` models
the panics (`chain.last().unwrap()` on an empty chain, and
`get_validator_commitment`'s explicit `panic!` when the proposer has no
stored commitment).  The source compares `block.previous_hash` with the
last block's hash but only logs the outcome — neither branch returns. -/
def verifyBlock (chain : List Block) (hashChainCom : List (String × HashChainCom))
    (epochTimestamp : Nat) (block : Block) : Option Bool :=
  if block.id = 1 then some true
  else
    match chain.getLast? with
    | none => none
    | some _previous =>
      match lookupCom hashChainCom block.proposer_address with
      | none => none
      | some com =>
        if verifyHashChainIndex com.hash_chain_index epochTimestamp block.proposer_hash
        then some true
        else some false

/-! ### Concrete inputs used by counterexamples and witnesses -/

/-- A last block whose hash is `[1]`. -/
def lastBlockW : Block :=
  { id := 1, hash := [1], previous_hash := [], timestamp := 0,
    proposer_address := "p", proposer_hash := [] }

/-- A follow-up block whose `previous_hash` `[2]` does not match the last
block's hash `[1]`, but whose proposer hash equals the stored commitment
(at slot 0 the hash-chain check compares them directly). -/
def mismatchBlockW : Block :=
  { id := 2, hash := [9], previous_hash := [2], timestamp := 0,
    proposer_address := "p", proposer_hash := [7] }

/-- A commitment store holding commitment `[7]` for proposer `"p"`. -/
def comStoreW : List (String × HashChainCom) :=
  [("p", { hash_chain_index := [7], sender := { address := "p" } })]

/-- A validator with no accounts at all. -/
def emptyValidatorW : Validator :=
  { state := { accounts := [], balances := [] }, hash_chain_com := [] }

/-- A two-account validator state with commitments and positive balances. -/
def twoAccountValidatorW : Validator :=
  { state :=
      { accounts := [{ address := "a" }, { address := "b" }]
        balances := [({ address := "a" }, 3), ({ address := "b" }, 5)] }
    hash_chain_com :=
      [("a", { hash_chain_index := [1], sender := { address := "a" } }),
       ("b", { hash_chain_index := [2], sender := { address := "b" } })] }

/-- A one-participant builder holding one signature of weight 5, with
`proven_weight = 5`. -/
def builderW : Builder :=
  { params := { msg := [], proven_weight := 5, security_param := 128 }
    sigs := [{ signature := some [], accumulated_weight := 0 }]
    signed_weight := 5
    participants := [{ public_key := [], weight := 5 }]
    party_tree_root := [] }

/-- A one-participant builder with no signatures yet. -/
def freshBuilderW : Builder :=
  builderNew { msg := [], proven_weight := 5, security_param := 128 }
    [{ public_key := [], weight := 5 }] []

/-- The certificate `build` emits from `builderW` with trivial external
collaborators (checked by kernel evaluation in the C8 witness). -/
def certBuiltW : Certificate :=
  { sig_commit := []
    signed_weight := 5
    total_sigs := 1
    reveals := [(0, { sig_slot := { signature := some [], accumulated_weight := 0 }
                      party := { public_key := [], weight := 5 } })]
    sig_proofs := []
    party_proofs := []
    reveal_positions := [0]
    reveal_indices := [0] }

/-! ## Theorems -/

/-- The chain built by `HashChain::new` is the iterated-SHA3 orbit of its
initial entry. -/
theorem pushNextHash_iterate (a : Bytes) (n : Nat) :
    pushNextHash^[n] [a] = (List.range (n + 1)).map (fun k => sha3_256^[k] a) := by
  induction n with
  | zero => simp
  | succ n ih =>
    rw [Function.iterate_succ_apply', ih]
    rw [show List.range (n + 1 + 1) = List.range (n + 1) ++ [n + 1] from
      List.range_succ (n + 1), List.map_append, pushNextHash]
    simp only [List.map_cons, List.map_nil, List.append_cancel_left_eq]
    rw [show List.range (n + 1) = List.range n ++ [n] from List.range_succ n,
      List.map_append]
    simp only [List.map_cons, List.map_nil, List.getLastD_concat]
    rw [← Function.iterate_succ_apply' sha3_256 n a]

/-- C5: for every nonce and slot `s ≤ EPOCH_DURATION`, the reveal stored
at chain index `EPOCH_DURATION − s + 1` verifies (iterating SHA3-256 `s`
times on it reproduces the commitment, the chain's last element), and at
`s = 0` verification accepts exactly when the reveal equals the
commitment. -/
theorem hashchain_roundtrip_and_zero (nonce s : Nat) (hs : s ≤ EPOCH_DURATION) :
    verifyHashChainIndex ((hashChainNew nonce).getLastD []) s
        ((hashChainNew nonce).getD (EPOCH_DURATION - s + 1) []) = true
    ∧ (∀ com r : Bytes, (verifyHashChainIndex com 0 r = true ↔ r = com)) := by
  constructor
  · have hc : hashChainNew nonce =
        (List.range (EPOCH_DURATION + 2)).map
          (fun k => sha3_256^[k] (sha3_256 (u64be nonce))) :=
      pushNextHash_iterate (sha3_256 (u64be nonce)) (EPOCH_DURATION + 1)
    have hlast : (hashChainNew nonce).getLastD []
        = sha3_256^[EPOCH_DURATION + 1] (sha3_256 (u64be nonce)) := by
      rw [hc, show List.range (EPOCH_DURATION + 2)
          = List.range (EPOCH_DURATION + 1) ++ [EPOCH_DURATION + 1] from
        List.range_succ (EPOCH_DURATION + 1), List.map_append]
      simp only [List.map_cons, List.map_nil, List.getLastD_concat]
    have hlen : (hashChainNew nonce).length = EPOCH_DURATION + 2 := by
      rw [hc]; simp only [List.length_map, List.length_range]
    have hidx : EPOCH_DURATION - s + 1 < (hashChainNew nonce).length := by
      rw [hlen]; omega
    have hget : (hashChainNew nonce).getD (EPOCH_DURATION - s + 1) []
        = sha3_256^[EPOCH_DURATION - s + 1] (sha3_256 (u64be nonce)) := by
      rw [List.getD_eq_getElem _ _ hidx]
      simp only [hc, List.getElem_map, List.getElem_range]
    rw [hlast, hget, verifyHashChainIndex]
    rw [show (EPOCH_DURATION + 1) - (EPOCH_DURATION - s + 1) = s by omega]
    rw [← Function.iterate_add_apply]
    rw [show s + (EPOCH_DURATION - s + 1) = EPOCH_DURATION + 1 by omega]
    exact beq_self_eq_true _
  · intro com r
    rw [verifyHashChainIndex]
    simp only [Nat.sub_zero, Nat.sub_self, Function.iterate_zero, id_eq]
    exact beq_iff_eq

/-- Witness for C5 at `nonce = 0`, `s = 3`. -/
theorem hashchain_roundtrip_and_zero_witness :
    verifyHashChainIndex ((hashChainNew 0).getLastD []) 3
        ((hashChainNew 0).getD (EPOCH_DURATION - 3 + 1) []) = true
    ∧ (∀ com r : Bytes, (verifyHashChainIndex com 0 r = true ↔ r = com)) :=
  hashchain_roundtrip_and_zero 0 3 (by decide)

/-- If the current lowest weight is at most every remaining weight, the
selection loop never updates the proposer. -/
theorem selectLoop_ge (pairs : List (ℚ × Account)) (l : ℚ) (p : Account)
    (h : ∀ w ∈ pairs.map Prod.fst, l ≤ w) : selectLoop pairs (some l) p = p := by
  induction pairs with
  | nil => rfl
  | cons wa rest ih =>
    obtain ⟨w, a⟩ := wa
    have hw : l ≤ w := h w (by simp)
    have hlt : ltLowest w (some l) = false := by
      simp only [ltLowest, decide_eq_false_iff_not, not_lt]
      exact hw
    simp only [selectLoop, hlt, Bool.false_eq_true, if_false]
    exact ih (fun w' hw' => h w' (by simp [hw']))

/-- If some remaining weight is strictly below the current lowest, the
selection loop returns the account at the first global argmin of the
remaining weights. -/
theorem selectLoop_min (pairs : List (ℚ × Account)) :
    ∀ (l : ℚ) (p : Account), (∃ w ∈ pairs.map Prod.fst, w < l) →
    ∃ i, ∃ hi : i < pairs.length,
      selectLoop pairs (some l) p = (pairs.get ⟨i, hi⟩).2
      ∧ (pairs.get ⟨i, hi⟩).1 < l
      ∧ (∀ j (hj : j < pairs.length), (pairs.get ⟨i, hi⟩).1 ≤ (pairs.get ⟨j, hj⟩).1)
      ∧ (∀ j (hj : j < i),
          (pairs.get ⟨i, hi⟩).1 < (pairs.get ⟨j, Nat.lt_trans hj hi⟩).1) := by
  induction pairs with
  | nil => intro l p hex; simp at hex
  | cons wa rest ih =>
    intro l p hex
    obtain ⟨w, a⟩ := wa
    by_cases hw : w < l
    · have hstep : selectLoop ((w, a) :: rest) (some l) p = selectLoop rest (some w) a := by
        simp [selectLoop, ltLowest, hw]
      by_cases hex2 : ∃ w' ∈ rest.map Prod.fst, w' < w
      · obtain ⟨i, hi, heq, hlt, hmin, hfirst⟩ := ih w a hex2
        refine ⟨i + 1, Nat.succ_lt_succ hi, ?_, ?_, ?_, ?_⟩
        · rw [hstep, heq]; rfl
        · exact lt_trans hlt hw
        · intro j hj
          cases j with
          | zero => exact le_of_lt hlt
          | succ j => exact hmin j (Nat.lt_of_succ_lt_succ hj)
        · intro j hj
          cases j with
          | zero => exact hlt
          | succ j => exact hfirst j (Nat.lt_of_succ_lt_succ hj)
      · push_neg at hex2
        have hrest : selectLoop rest (some w) a = a := selectLoop_ge rest w a hex2
        refine ⟨0, Nat.succ_pos _, ?_, hw, ?_, ?_⟩
        · rw [hstep, hrest]; rfl
        · intro j hj
          cases j with
          | zero => exact le_refl _
          | succ j =>
            have hj' : j < rest.length := Nat.lt_of_succ_lt_succ hj
            exact hex2 _ (List.mem_map_of_mem Prod.fst
              (List.get_eq_getElem rest ⟨j, hj'⟩ ▸ List.getElem_mem hj'))
        · intro j hj
          exact absurd hj (Nat.not_lt_zero j)
    · have hstep : selectLoop ((w, a) :: rest) (some l) p = selectLoop rest (some l) p := by
        simp [selectLoop, ltLowest, hw]
      have hex2 : ∃ w' ∈ rest.map Prod.fst, w' < l := by
        obtain ⟨w', hmem, hlt'⟩ := hex
        simp only [List.map_cons, List.mem_cons] at hmem
        cases hmem with
        | inl heq => exact absurd (heq ▸ hlt') hw
        | inr hmem => exact ⟨w', hmem, hlt'⟩
      obtain ⟨i, hi, heq, hlt, hmin, hfirst⟩ := ih l p hex2
      have hlw : l ≤ w := not_lt.mp hw
      refine ⟨i + 1, Nat.succ_lt_succ hi, ?_, hlt, ?_, ?_⟩
      · rw [hstep, heq]; rfl
      · intro j hj
        cases j with
        | zero => exact le_of_lt (lt_of_lt_of_le hlt hlw)
        | succ j => exact hmin j (Nat.lt_of_succ_lt_succ hj)
      · intro j hj
        cases j with
        | zero => exact lt_of_lt_of_le hlt hlw
        | succ j => exact hfirst j (Nat.lt_of_succ_lt_succ hj)

/-- Starting from the initial infinite lowest weight, the selection loop
returns the account at the first global argmin of the weights. -/
theorem selectLoop_none (pairs : List (ℚ × Account)) (q : Account) (hne : pairs ≠ []) :
    ∃ i, ∃ hi : i < pairs.length,
      selectLoop pairs none q = (pairs.get ⟨i, hi⟩).2
      ∧ (∀ j (hj : j < pairs.length), (pairs.get ⟨i, hi⟩).1 ≤ (pairs.get ⟨j, hj⟩).1)
      ∧ (∀ j (hj : j < i),
          (pairs.get ⟨i, hi⟩).1 < (pairs.get ⟨j, Nat.lt_trans hj hi⟩).1) := by
  cases pairs with
  | nil => exact absurd rfl hne
  | cons wa rest =>
    obtain ⟨w, a⟩ := wa
    have hstep : selectLoop ((w, a) :: rest) none q = selectLoop rest (some w) a := by
      simp [selectLoop, ltLowest]
    by_cases hex : ∃ w' ∈ rest.map Prod.fst, w' < w
    · obtain ⟨i, hi, heq, hlt, hmin, hfirst⟩ := selectLoop_min rest w a hex
      refine ⟨i + 1, Nat.succ_lt_succ hi, ?_, ?_, ?_⟩
      · rw [hstep, heq]; rfl
      · intro j hj
        cases j with
        | zero => exact le_of_lt hlt
        | succ j => exact hmin j (Nat.lt_of_succ_lt_succ hj)
      · intro j hj
        cases j with
        | zero => exact hlt
        | succ j => exact hfirst j (Nat.lt_of_succ_lt_succ hj)
    · push_neg at hex
      have hrest : selectLoop rest (some w) a = a := selectLoop_ge rest w a hex
      refine ⟨0, Nat.succ_pos _, ?_, ?_, ?_⟩
      · rw [hstep, hrest]; rfl
      · intro j hj
        cases j with
        | zero => exact le_refl _
        | succ j =>
          have hj' : j < rest.length := Nat.lt_of_succ_lt_succ hj
          exact hex _ (List.mem_map_of_mem Prod.fst
            (List.get_eq_getElem rest ⟨j, hj'⟩ ▸ List.getElem_mem hj'))
      · intro j hj
        exact absurd hj (Nat.not_lt_zero j)

/-- The weight/account pairs walked by the selection loop are the
per-account weights paired with the accounts. -/
theorem electionWeights_zip (seed : Bytes) (v : Validator) :
    (electionWeights seed v).zip v.state.accounts
      = v.state.accounts.map (fun x => (electionWeight seed v x, x)) := by
  have h1 := List.zip_map' (electionWeight seed v) id v.state.accounts
  simpa [electionWeights] using h1

/-- C6: when the account list is non-empty and every account has a stored
commitment and a (positive) balance, `select_block_proposer` returns the
first account in iteration order whose weight
`1e9 − u64_be(SHA3-256(seed ‖ commitment)[0..8]) / balance` is minimal;
ties go to the earlier account (every strictly earlier account has a
strictly larger weight).  The result is a pure function of its inputs,
hence deterministic.  (`f64` scores are modelled by exact rationals.) -/
theorem select_block_proposer_first_argmin (seed : Bytes) (v : Validator)
    (hne : v.state.accounts ≠ [])
    (hcom : ∀ a ∈ v.state.accounts, (lookupCom v.hash_chain_com a.address).isSome = true)
    (hbal : ∀ a ∈ v.state.accounts, (lookupBal v.state.balances a).isSome = true
        ∧ 0 < (lookupBal v.state.balances a).getD 0) :
    ∃ i, i < v.state.accounts.length
      ∧ selectBlockProposer seed v = some (v.state.accounts.getD i default)
      ∧ (∀ j, j < v.state.accounts.length →
          (electionWeights seed v).getD i 0 ≤ (electionWeights seed v).getD j 0)
      ∧ (∀ j, j < i →
          (electionWeights seed v).getD i 0 < (electionWeights seed v).getD j 0)
      ∧ (∀ j, j < v.state.accounts.length → ∀ com bal,
          lookupCom v.hash_chain_com (v.state.accounts.getD j default).address = some com →
          lookupBal v.state.balances (v.state.accounts.getD j default) = some bal →
          (electionWeights seed v).getD j 0
            = 1000000000
              - (u64fromBE ((sha3_256 (seed ++ com.hash_chain_index)).take 8) : ℚ) / bal) := by
  have hzip := electionWeights_zip seed v
  have hPlen : ((electionWeights seed v).zip v.state.accounts).length
      = v.state.accounts.length := by
    rw [hzip, List.length_map]
  have hPget : ∀ j (hj : j < ((electionWeights seed v).zip v.state.accounts).length),
      ((electionWeights seed v).zip v.state.accounts).get ⟨j, hj⟩
        = (electionWeight seed v (v.state.accounts.getD j default),
            v.state.accounts.getD j default) := by
    intro j hj
    have hj' : j < v.state.accounts.length := hPlen ▸ hj
    rw [List.getD_eq_getElem _ _ hj']
    simp only [hzip, List.get_eq_getElem, List.getElem_map]
  have hWget : ∀ j (hj : j < v.state.accounts.length),
      (electionWeights seed v).getD j 0
        = electionWeight seed v (v.state.accounts.getD j default) := by
    intro j hj
    have hjw : j < (electionWeights seed v).length := by
      rw [electionWeights, List.length_map]; exact hj
    rw [List.getD_eq_getElem _ _ hjw, List.getD_eq_getElem _ _ hj]
    simp only [electionWeights, List.getElem_map]
  obtain ⟨a0, rest, hA⟩ := List.exists_cons_of_ne_nil hne
  have hsel : selectBlockProposer seed v
      = some (selectLoop ((electionWeights seed v).zip v.state.accounts) none a0) := by
    simp only [selectBlockProposer, hA]
  have hPne : (electionWeights seed v).zip v.state.accounts ≠ [] := by
    intro hnil
    have hz : ((electionWeights seed v).zip v.state.accounts).length = 0 := by
      rw [hnil]; rfl
    rw [hPlen, hA] at hz
    exact absurd hz (by simp)
  obtain ⟨i, hi, heq, hmin, hfirst⟩ :=
    selectLoop_none ((electionWeights seed v).zip v.state.accounts) a0 hPne
  have hi' : i < v.state.accounts.length := hPlen ▸ hi
  refine ⟨i, hi', ?_, ?_, ?_, ?_⟩
  · rw [hsel, heq, hPget i hi]
  · intro j hj
    have hjP : j < ((electionWeights seed v).zip v.state.accounts).length := by
      rw [hPlen]; exact hj
    have hle := hmin j hjP
    rw [hPget i hi, hPget j hjP] at hle
    rw [hWget i hi', hWget j hj]
    exact hle
  · intro j hj
    have hlt := hfirst j hj
    rw [hPget i hi, hPget j (Nat.lt_trans hj hi)] at hlt
    rw [hWget i hi', hWget j (Nat.lt_trans hj hi')]
    exact hlt
  · intro j hj com bal hc hb
    rw [hWget j hj]
    simp only [electionWeight, hc, hb]

/-- Witness for C6 on a concrete two-account validator with commitments
and positive balances. -/
theorem select_block_proposer_first_argmin_witness :
    ∃ i, i < twoAccountValidatorW.state.accounts.length
      ∧ selectBlockProposer [] twoAccountValidatorW
          = some (twoAccountValidatorW.state.accounts.getD i default)
      ∧ (∀ j, j < twoAccountValidatorW.state.accounts.length →
          (electionWeights [] twoAccountValidatorW).getD i 0
            ≤ (electionWeights [] twoAccountValidatorW).getD j 0)
      ∧ (∀ j, j < i →
          (electionWeights [] twoAccountValidatorW).getD i 0
            < (electionWeights [] twoAccountValidatorW).getD j 0)
      ∧ (∀ j, j < twoAccountValidatorW.state.accounts.length → ∀ com bal,
          lookupCom twoAccountValidatorW.hash_chain_com
              (twoAccountValidatorW.state.accounts.getD j default).address = some com →
          lookupBal twoAccountValidatorW.state.balances
              (twoAccountValidatorW.state.accounts.getD j default) = some bal →
          (electionWeights [] twoAccountValidatorW).getD j 0
            = 1000000000
              - (u64fromBE ((sha3_256 ([] ++ com.hash_chain_index)).take 8) : ℚ) / bal) :=
  select_block_proposer_first_argmin [] twoAccountValidatorW
    (by decide) (by decide) (by decide)

/-- C7 counterexample: on an empty account list the source does not
return a `NoValidators` error — its return type `&Account` admits no
error value at all; it panics on the `accounts[0]` indexing (the panic
outcome is `none` in the model, not an error return). -/
theorem select_block_proposer_empty_counterexample :
    selectBlockProposer [] emptyValidatorW = none := rfl

/-- C7 amended: on an empty account list `select_block_proposer` panics
(out-of-bounds indexing of `accounts[0]`) instead of returning a
`NoValidators` error: no account and no error value is produced. -/
theorem select_block_proposer_empty_panics (seed : Bytes) (v : Validator)
    (h : v.state.accounts = []) : selectBlockProposer seed v = none := by
  rw [selectBlockProposer, h]

/-- Witness for the amended C7. -/
theorem select_block_proposer_empty_panics_witness :
    selectBlockProposer [5] emptyValidatorW = none :=
  select_block_proposer_empty_panics [5] emptyValidatorW rfl

/-- C2 (code bug): `Certificate::verify` skips step 6, the coin-choice
re-derivation ("Skipping coin choice verification"), so its outcome is
entirely independent of `reveal_indices` — for any Dilithium verifier,
Merkle verifier and serialisers, replacing `reveal_indices` by arbitrary
values never changes the verdict, hence a certificate whose reveal
positions do not match the re-derived coins is *not* rejected on that
ground. -/
theorem cert_verify_ignores_reveal_indices
    (dv : Bytes → Bytes → Bytes → Bool)
    (mv : Bytes → List Bytes → List Nat → Nat → List Bytes → Bool)
    (serSlot : SigSlot → Bytes) (serParty : Participant → Bytes)
    (cert : Certificate) (params : Params) (party_tree_root : Bytes)
    (ri : List Nat) :
    certVerify dv mv serSlot serParty { cert with reveal_indices := ri }
        params party_tree_root
      = certVerify dv mv serSlot serParty cert params party_tree_root := rfl

/-- C1 (code bug): `verify_block` does not reject a block whose
`previous_hash` differs from the last block's hash — the mismatch is only
logged.  Concretely: a chain `[lastBlockW]` with last hash `[1]`, a block
with `id = 2` and `previous_hash = [2] ≠ [1]` whose proposer hash matches
the stored commitment at slot 0, is accepted (`some true`). -/
theorem verify_block_accepts_prev_hash_mismatch :
    mismatchBlockW.id ≠ 1
    ∧ mismatchBlockW.previous_hash ≠ lastBlockW.hash
    ∧ verifyBlock [lastBlockW] comStoreW 0 mismatchBlockW = some true := by
  refine ⟨by decide, by decide, by decide⟩

/-- The post-check mutations of `add_signature` amount to one slot
replacement plus the weight increment. -/
theorem addSignatureUpdate_eq (b : Builder) (pos : Nat) (sig : Bytes)
    (hpos : pos < b.sigs.length) :
    addSignatureUpdate b pos sig =
      { b with
          sigs := b.sigs.set pos
            { signature := some sig
              accumulated_weight :=
                if 0 < pos then
                  (b.sigs.getD (pos - 1) default).accumulated_weight
                    + (b.participants.getD (pos - 1) default).weight
                else (b.sigs.getD pos default).accumulated_weight }
          signed_weight :=
            b.signed_weight + (b.participants.getD pos default).weight } := by
  rw [addSignatureUpdate]
  by_cases hp : 0 < pos
  · rw [if_pos hp]
    have hpos' : pos < (b.sigs.set pos
        { b.sigs.getD pos default with signature := some sig }).length := by
      rw [List.length_set]; exact hpos
    have hget : (b.sigs.set pos
        { b.sigs.getD pos default with signature := some sig }).getD pos default
        = { b.sigs.getD pos default with signature := some sig } := by
      rw [List.getD_eq_getElem _ _ hpos', List.getElem_set_self]
    have hprev : (b.sigs.set pos
        { b.sigs.getD pos default with signature := some sig }).getD (pos - 1) default
        = b.sigs.getD (pos - 1) default := by
      have hne : pos ≠ pos - 1 := by omega
      have hlt : pos - 1 < b.sigs.length := by omega
      rw [List.getD_eq_getElem _ _ (by rw [List.length_set]; exact hlt),
        List.getD_eq_getElem _ _ hlt]
      exact List.getElem_set_ne hne _
    rw [hget, hprev, List.set_set, if_pos hp]
  · have hz : pos = 0 := by omega
    subst hz
    rw [if_neg hp, if_neg hp]

/-- C4: full branch characterisation of `add_signature` on a builder with
equally long `sigs` and `participants` vectors (the invariant every
reachable builder satisfies): position out of range fails with
`InvalidPosition`; an occupied slot fails with `DuplicateSignature`; a
zero-weight participant fails with `ZeroWeight`; otherwise the signature
is stored at `pos`, `signed_weight` grows by the participant's weight,
and for `pos > 0` the slot's `accumulated_weight` becomes
`sigs[pos-1].accumulated_weight + participants[pos-1].weight`. -/
theorem add_signature_spec (b : Builder) (pos : Nat) (sig : Bytes)
    (hlen : b.sigs.length = b.participants.length) :
    (b.participants.length ≤ pos →
        addSignature b pos sig = (.error (.invalidPosition pos), b))
    ∧ (pos < b.sigs.length →
        ((b.sigs.getD pos default).signature.isSome = true →
            addSignature b pos sig = (.error (.duplicateSignature pos), b))
        ∧ ((b.sigs.getD pos default).signature.isSome = false →
            (b.participants.getD pos default).weight = 0 →
            addSignature b pos sig = (.error (.zeroWeight pos), b))
        ∧ ((b.sigs.getD pos default).signature.isSome = false →
            (b.participants.getD pos default).weight ≠ 0 →
            addSignature b pos sig = (.ok (),
              { b with
                  sigs := b.sigs.set pos
                    { signature := some sig
                      accumulated_weight :=
                        if 0 < pos then
                          (b.sigs.getD (pos - 1) default).accumulated_weight
                            + (b.participants.getD (pos - 1) default).weight
                        else (b.sigs.getD pos default).accumulated_weight }
                  signed_weight :=
                    b.signed_weight + (b.participants.getD pos default).weight }))) := by
  refine ⟨?_, ?_⟩
  · intro hge
    rw [addSignature, if_pos hge]
  · intro hpos
    have hnge : ¬ b.participants.length ≤ pos := by omega
    refine ⟨?_, ?_, ?_⟩
    · intro hdup
      rw [addSignature, if_neg hnge, if_pos hpos, if_pos hdup]
    · intro hnodup hzero
      rw [addSignature, if_neg hnge, if_pos hpos,
        if_neg (by rw [hnodup]; exact Bool.false_ne_true), if_pos hzero]
    · intro hnodup hnz
      rw [addSignature, if_neg hnge, if_pos hpos,
        if_neg (by rw [hnodup]; exact Bool.false_ne_true), if_neg hnz,
        addSignatureUpdate_eq b pos sig hpos]

/-- Witness for C4 on a fresh one-participant builder at position 0. -/
theorem add_signature_spec_witness :
    (freshBuilderW.participants.length ≤ 0 →
        addSignature freshBuilderW 0 [42] = (.error (.invalidPosition 0), freshBuilderW))
    ∧ (0 < freshBuilderW.sigs.length →
        ((freshBuilderW.sigs.getD 0 default).signature.isSome = true →
            addSignature freshBuilderW 0 [42]
              = (.error (.duplicateSignature 0), freshBuilderW))
        ∧ ((freshBuilderW.sigs.getD 0 default).signature.isSome = false →
            (freshBuilderW.participants.getD 0 default).weight = 0 →
            addSignature freshBuilderW 0 [42] = (.error (.zeroWeight 0), freshBuilderW))
        ∧ ((freshBuilderW.sigs.getD 0 default).signature.isSome = false →
            (freshBuilderW.participants.getD 0 default).weight ≠ 0 →
            addSignature freshBuilderW 0 [42] = (.ok (),
              { freshBuilderW with
                  sigs := freshBuilderW.sigs.set 0
                    { signature := some [42]
                      accumulated_weight :=
                        if 0 < 0 then
                          (freshBuilderW.sigs.getD (0 - 1) default).accumulated_weight
                            + (freshBuilderW.participants.getD (0 - 1) default).weight
                        else (freshBuilderW.sigs.getD 0 default).accumulated_weight }
                  signed_weight := freshBuilderW.signed_weight
                    + (freshBuilderW.participants.getD 0 default).weight }))) :=
  add_signature_spec freshBuilderW 0 [42] rfl

/-- C10: whenever `add_signature` fails, the builder is unchanged — the
source performs every check before its first mutation. -/
theorem add_signature_error_state_unchanged (b : Builder) (pos : Nat) (sig : Bytes)
    (e : CcokError) (h : (addSignature b pos sig).1 = .error e) :
    (addSignature b pos sig).2 = b := by
  rw [addSignature] at h ⊢
  by_cases h1 : b.participants.length ≤ pos
  · rw [if_pos h1]
  · rw [if_neg h1] at h ⊢
    by_cases h2 : pos < b.sigs.length
    · rw [if_pos h2] at h ⊢
      by_cases h3 : (b.sigs.getD pos default).signature.isSome = true
      · rw [if_pos h3]
      · rw [if_neg h3] at h ⊢
        by_cases h4 : (b.participants.getD pos default).weight = 0
        · rw [if_pos h4]
        · rw [if_neg h4] at h
          exact absurd h (by simp)
    · rw [if_neg h2]

/-- Witness for C10: an `InvalidPosition` failure leaves the builder
untouched. -/
theorem add_signature_error_state_unchanged_witness :
    (addSignature freshBuilderW 2 [7]).2 = freshBuilderW :=
  add_signature_error_state_unchanged freshBuilderW 2 [7] (.invalidPosition 2) rfl

/-- Rust `coin_choice` can only fail by the remainder-by-zero panic. -/
theorem coinChoice_error_shape (b : Builder) (i : Nat) (r : Bytes) (e : CcokError)
    (h : coinChoice b i r = .error e) : e = .remainderByZero := by
  rw [coinChoice] at h
  by_cases hz : b.signed_weight = 0
  · rw [if_pos hz] at h
    exact (Except.error.inj h).symm
  · rw [if_neg hz] at h
    exact absurd h (by simp)

/-- Rust `find_coin_position` can only fail with `noSignatures` or
`noCoinPosition`. -/
theorem findCoinPosition_error_shape (b : Builder) (coin : Nat) (e : CcokError)
    (h : findCoinPosition b coin = .error e) :
    e = .noSignatures ∨ e = .noCoinPosition := by
  rw [findCoinPosition] at h
  by_cases h1 : (cumWeightsGo b.participants b.sigs 0 0).isEmpty = true
  · rw [if_pos h1] at h
    exact Or.inl (Except.error.inj h).symm
  · rw [if_neg h1] at h
    by_cases h2 : bsearchLoop (cumWeightsGo b.participants b.sigs 0 0) coin 0
        (cumWeightsGo b.participants b.sigs 0 0).length
        < (cumWeightsGo b.participants b.sigs 0 0).length
    · rw [if_pos h2] at h
      exact absurd h (by simp)
    · rw [if_neg h2] at h
      exact Or.inr (Except.error.inj h).symm

/-- The reveal-selection loop can only fail with the errors of
`coin_choice` and `find_coin_position`. -/
theorem buildReveals_error_shape (b : Builder) (r : Bytes) :
    ∀ (idxs : List Nat) (m : List (Nat × Reveal)) (inf : List (Nat × Nat))
      (e : CcokError), buildReveals b r idxs m inf = .error e →
      e = .remainderByZero ∨ e = .noSignatures ∨ e = .noCoinPosition := by
  intro idxs
  induction idxs with
  | nil =>
    intro m inf e h
    rw [buildReveals] at h
    exact absurd h (by simp)
  | cons i rest ih =>
    intro m inf e h
    rw [buildReveals] at h
    cases hc : coinChoice b i r with
    | error e' =>
      rw [hc] at h
      simp only at h
      exact Or.inl ((Except.error.inj h) ▸ coinChoice_error_shape b i r e' hc)
    | ok choice =>
      rw [hc] at h
      simp only at h
      cases hf : findCoinPosition b choice with
      | error e' =>
        rw [hf] at h
        simp only at h
        exact Or.inr ((Except.error.inj h) ▸ findCoinPosition_error_shape b choice e' hf)
      | ok pos =>
        rw [hf] at h
        simp only at h
        by_cases hmem : (m.lookup pos).isSome = true
        · rw [if_pos hmem] at h
          exact ih _ _ _ h
        · rw [if_neg hmem] at h
          exact ih _ _ _ h

/-- C3: `build` fails with `InsufficientWeight` exactly when
`signed_weight < proven_weight` (no other error takes that shape), and a
successful build emits a certificate whose `signed_weight` is the
builder's (hence at least `proven_weight`) and whose `total_sigs` is the
number of participants. -/
theorem build_insufficient_weight_iff (serSlot : SigSlot → Bytes)
    (serParty : Participant → Bytes) (mtRoot : List Bytes → Bytes)
    (mtProve : List Bytes → List Nat → List Bytes) (b : Builder)
    (hlen : b.sigs.length = b.participants.length) :
    (build serSlot serParty mtRoot mtProve b
        = .error (.insufficientWeight b.signed_weight b.params.proven_weight)
      ↔ b.signed_weight < b.params.proven_weight)
    ∧ (∀ sw pw, build serSlot serParty mtRoot mtProve b
        = .error (.insufficientWeight sw pw)
        → b.signed_weight < b.params.proven_weight)
    ∧ (∀ cert, build serSlot serParty mtRoot mtProve b = .ok cert →
        cert.signed_weight = b.signed_weight
        ∧ b.params.proven_weight ≤ cert.signed_weight
        ∧ cert.total_sigs = b.participants.length) := by
  by_cases hw : b.signed_weight < b.params.proven_weight
  · have hb : build serSlot serParty mtRoot mtProve b
        = .error (.insufficientWeight b.signed_weight b.params.proven_weight) := by
      rw [build, if_pos hw]
    refine ⟨⟨fun _ => hw, fun _ => hb⟩, fun sw pw _ => hw, fun cert hcert => ?_⟩
    rw [hb] at hcert
    exact absurd hcert (by simp)
  · cases hbr : buildReveals b (mtRoot (merkleLeaves serSlot b.sigs))
        (List.range (numReveals b.params.proven_weight b.signed_weight
          b.params.security_param)) [] [] with
    | error e =>
      have hb : build serSlot serParty mtRoot mtProve b = .error e := by
        rw [build, if_neg hw]
        simp only [hbr]
      have hshape := buildReveals_error_shape b _ _ _ _ _ hbr
      refine ⟨⟨?_, fun hlt => absurd hlt hw⟩, ?_, ?_⟩
      · intro heq
        rw [hb] at heq
        have he := Except.error.inj heq
        rcases hshape with h1 | h1 | h1 <;> rw [h1] at he <;> exact absurd he (by simp)
      · intro sw pw heq
        rw [hb] at heq
        have he := Except.error.inj heq
        rcases hshape with h1 | h1 | h1 <;> rw [h1] at he <;> exact absurd he (by simp)
      · intro cert hcert
        rw [hb] at hcert
        exact absurd hcert (by simp)
    | ok st =>
      obtain ⟨revealMap, revealInfo⟩ := st
      have hb : build serSlot serParty mtRoot mtProve b = .ok
          { sig_commit := mtRoot (merkleLeaves serSlot b.sigs)
            signed_weight := b.signed_weight
            total_sigs := b.sigs.length
            reveals := revealMap
            sig_proofs := mtProve (merkleLeaves serSlot b.sigs)
              ((sortByKey (fun x => x.1) revealInfo).map (fun x => x.1))
            party_proofs := mtProve (merkleLeaves serParty b.participants)
              ((sortByKey (fun x => x.1) revealInfo).map (fun x => x.1))
            reveal_positions := (sortByKey (fun x => x.1) revealInfo).map (fun x => x.1)
            reveal_indices := (sortByKey (fun x => x.1) revealInfo).map (fun x => x.2) } := by
        rw [build, if_neg hw]
        simp only [hbr]
      refine ⟨⟨?_, fun hlt => absurd hlt hw⟩, ?_, ?_⟩
      · intro heq
        rw [hb] at heq
        exact absurd heq (by simp)
      · intro sw pw heq
        rw [hb] at heq
        exact absurd heq (by simp)
      · intro cert hcert
        rw [hb] at hcert
        have hc := Except.ok.inj hcert
        rw [← hc]
        exact ⟨rfl, not_lt.mp hw, hlen ▸ rfl⟩

/-- Witness for C3 on a concrete one-participant builder with
`signed_weight = proven_weight = 5` and trivial external collaborators. -/
theorem build_insufficient_weight_iff_witness :
    (build (fun _ => []) (fun _ => []) (fun _ => []) (fun _ _ => []) builderW
        = .error (.insufficientWeight builderW.signed_weight
            builderW.params.proven_weight)
      ↔ builderW.signed_weight < builderW.params.proven_weight)
    ∧ (∀ sw pw, build (fun _ => []) (fun _ => []) (fun _ => []) (fun _ _ => []) builderW
        = .error (.insufficientWeight sw pw)
        → builderW.signed_weight < builderW.params.proven_weight)
    ∧ (∀ cert, build (fun _ => []) (fun _ => []) (fun _ => []) (fun _ _ => []) builderW
        = .ok cert →
        cert.signed_weight = builderW.signed_weight
        ∧ builderW.params.proven_weight ≤ cert.signed_weight
        ∧ cert.total_sigs = builderW.participants.length) :=
  build_insufficient_weight_iff (fun _ => []) (fun _ => []) (fun _ => [])
    (fun _ _ => []) builderW rfl

set_option maxRecDepth 1000000 in
/-- C8 counterexample: the Merkle leaves computed by
`MerkleTreeBuilder::build` are *not* SHA3-256 digests of the serialised
items — on the one-item list `[0u64]` (serialised to eight zero bytes by
`bincode`) the leaf differs from the SHA3-256 digest and equals the
Keccak-256 digest, because `CustomHasher` instantiates `sha3::Keccak256`
despite its "(SHA3)" comment. -/
theorem merkle_leaves_not_sha3_counterexample :
    merkleLeaves serializeU64 [0] ≠ [sha3_256 (serializeU64 0)]
    ∧ merkleLeaves serializeU64 [0] = [keccak256 (serializeU64 0)] :=
  ⟨by decide, rfl⟩

/-- C8 amended: the leaves of the CCoK signature tree and party tree are
Keccak-256 (not SHA3-256) digests of the serialised slots/participants;
in particular a successful `build` commits to the Keccak-256 leaf vector
of its `sigs`. -/
theorem build_uses_keccak_leaves (serSlot : SigSlot → Bytes)
    (serParty : Participant → Bytes) (mtRoot : List Bytes → Bytes)
    (mtProve : List Bytes → List Nat → List Bytes) (b : Builder)
    (cert : Certificate)
    (hok : build serSlot serParty mtRoot mtProve b = .ok cert) :
    cert.sig_commit = mtRoot (b.sigs.map (fun s => keccak256 (serSlot s)))
    ∧ merkleLeaves serSlot b.sigs = b.sigs.map (fun s => keccak256 (serSlot s))
    ∧ merkleLeaves serParty b.participants
        = b.participants.map (fun p => keccak256 (serParty p)) := by
  refine ⟨?_, rfl, rfl⟩
  by_cases hw : b.signed_weight < b.params.proven_weight
  · rw [build, if_pos hw] at hok
    exact absurd hok (by simp)
  · cases hbr : buildReveals b (mtRoot (merkleLeaves serSlot b.sigs))
        (List.range (numReveals b.params.proven_weight b.signed_weight
          b.params.security_param)) [] [] with
    | error e =>
      rw [build, if_neg hw] at hok
      simp only [hbr] at hok
      exact absurd hok (by simp)
    | ok st =>
      obtain ⟨revealMap, revealInfo⟩ := st
      rw [build, if_neg hw] at hok
      simp only [hbr] at hok
      have hc := Except.ok.inj hok
      rw [← hc]
      rfl

set_option maxRecDepth 1000000 in
/-- Witness for the amended C8, by kernel evaluation of a full `build`
run on `builderW`. -/
theorem build_uses_keccak_leaves_witness :
    certBuiltW.sig_commit = ([] : Bytes)
    ∧ merkleLeaves (fun _ => ([] : Bytes)) builderW.sigs
        = builderW.sigs.map (fun s => keccak256 ((fun _ => ([] : Bytes)) s))
    ∧ merkleLeaves (fun _ => ([] : Bytes)) builderW.participants
        = builderW.participants.map (fun p => keccak256 ((fun _ => ([] : Bytes)) p)) :=
  build_uses_keccak_leaves (fun _ => []) (fun _ => []) (fun _ => [])
    (fun _ _ => []) builderW certBuiltW (by rfl)

end NiroPoK
